import Mathlib

/-!
Verification of `diffr`'s `src/main.rs` against its natural-language
specification.  Bytes are modelled as `Nat` (values 0..255 taken verbatim
from the input stream); byte buffers are `List Nat`.  The terminal stream
(`termcolor`'s `WriteColor`, an external crate) is modelled as a list of
events: `set_color`, `write`, `reset`.  Functions from the `diffr_lib`
crate (not part of this repository's `src/`) are modelled from the spec
and documented as such.
-/

/-- Byte classifier matching Rust's `u8::is_ascii_whitespace`:
space, tab, line feed, form feed, carriage return. -/
def isRustWs (b : Nat) : Bool :=
  b = 32 || b = 9 || b = 10 || b = 12 || b = 13

/-- Modelled from the spec: the tokenizer's word class `[0-9A-Za-z_]`. -/
def isWordByte (b : Nat) : Bool :=
  (48 ≤ b && b ≤ 57) || (65 ≤ b && b ≤ 90) || (97 ≤ b && b ≤ 122) || b = 95

/-- Modelled from the spec: the tokenizer's whitespace class
`{ ' ', '\t', '\n' }`. -/
def isTokWs (b : Nat) : Bool :=
  b = 32 || b = 9 || b = 10

/-- Terminal colors used by the default configuration (`termcolor::Color`
restricted to the variants `main.rs` imports). -/
inductive TermColor
  | green
  | red
  | white
deriving DecidableEq, Repr

/-- Model of `termcolor::ColorSpec` as used by `main.rs`:
optional foreground, optional background, bold flag. -/
structure ColorSpec where
  fg : Option TermColor
  bg : Option TermColor
  bold : Bool
deriving DecidableEq, Repr

/-- Embedding of `ColorSpec::default()`: no colors, not bold. -/
def ColorSpec.default : ColorSpec := ⟨none, none, false⟩

/-- Embedding of `color_spec` from `main.rs`. -/
def color_spec (fg bg : Option TermColor) (bold : Bool) : ColorSpec :=
  ⟨fg, bg, bold⟩

/-- Embedding of `AppConfig` (the `debug` flag only feeds the timing
telemetry, which is out of scope; the four faces are kept). -/
structure AppConfig where
  added_face : ColorSpec
  refine_added_face : ColorSpec
  removed_face : ColorSpec
  refine_removed_face : ColorSpec
deriving DecidableEq, Repr

/-- Embedding of `AppConfig::default()` from `main.rs`. -/
def AppConfig.default : AppConfig :=
  { added_face := color_spec (some .green) none false
    refine_added_face := color_spec (some .white) (some .green) true
    removed_face := color_spec (some .red) none false
    refine_removed_face := color_spec (some .white) (some .red) true }

/-- One interaction with the `WriteColor` sink: `set_color`, a byte
write, or `reset`. -/
inductive OutEvent
  | setColor (c : ColorSpec)
  | write (bs : List Nat)
  | reset
deriving DecidableEq, Repr

/-- The data bytes carried by an event stream (ignoring color control). -/
def writtenBytes : List OutEvent → List Nat
  | [] => []
  | .write bs :: r => bs ++ writtenBytes r
  | .setColor _ :: r => writtenBytes r
  | .reset :: r => writtenBytes r

/-- Embedding of `output` from `main.rs`: clamp `to` to the buffer
length, do nothing when the range is empty, otherwise set the color,
write the slice minus a trailing newline, reset, then write the newline
if there was one. -/
def output (buf : List Nat) (lo hi : Nat) (colorspec : ColorSpec) : List OutEvent :=
  let hi2 := min hi buf.length
  if hi2 ≤ lo then []
  else
    let b := (buf.take hi2).drop lo
    if b.getLast? = some 10 then
      [.setColor colorspec, .write b.dropLast, .reset, .write [10]]
    else
      [.setColor colorspec, .write b, .reset]

/-- Embedding of `index_of` from `main.rs`: index of the first
occurrence of `target`. -/
def index_of (buf : List Nat) (target : Nat) : Option Nat :=
  match buf with
  | [] => none
  | c :: rest =>
    if c = target then some 0 else (index_of rest target).map (· + 1)

/-- Embedding of the inner `skip_escape_code` from `main.rs`: length of
one `ESC '[' body 'm'` sequence at the head of `buf`, if present. -/
def skip_escape_code (buf : List Nat) : Option Nat :=
  match buf with
  | 27 :: 91 :: rest => (index_of rest 109).map (· + 3)
  | _ => none

/-- Fueled unrolling of the `while let` loop of `skip_all_escape_code`.
Each successful step consumes at least 3 bytes, so `buf.length` fuel is
always enough (see `skipAllAux_congr`). -/
def skipAllAux : Nat → List Nat → Nat
  | 0, _ => 0
  | fuel + 1, buf =>
    match skip_escape_code buf with
    | none => 0
    | some n => n + skipAllAux fuel (buf.drop n)

/-- Embedding of `skip_all_escape_code` from `main.rs`: total length of
the run of escape sequences at the head of `buf`. -/
def skip_all_escape_code (buf : List Nat) : Nat :=
  skipAllAux buf.length buf

/-- Embedding of `first_after_escape` from `main.rs`:
`buf.iter().skip(nbytes).next()`. -/
def first_after_escape (buf : List Nat) : Option Nat :=
  (buf.drop (skip_all_escape_code buf)).head?

/-- Embedding of `skip_token` from `main.rs`: bytes until the next
`ESC '['` pair, or the whole buffer; `0` on the empty buffer, and a
lone final byte is never the start of a pair. -/
def skip_token (buf : List Nat) : Nat :=
  match buf with
  | [] => 0
  | [_] => 1
  | a :: b :: rest =>
    if a = 27 ∧ b = 91 then 0 else 1 + skip_token (b :: rest)

/-- One CSI SGR sequence: `ESC '['`, a body free of `'m'`, then `'m'`. -/
def isSgrSeq (s : List Nat) : Prop :=
  ∃ body, s = 27 :: 91 :: (body ++ [109]) ∧ ¬ (109 ∈ body)

/-- A (possibly empty) run of consecutive SGR sequences. -/
inductive SgrRun : List Nat → Prop
  | nil : SgrRun []
  | cons (s t : List Nat) : isSgrSeq s → SgrRun t → SgrRun (s ++ t)

theorem index_of_some {buf : List Nat} {target i : Nat}
    (h : index_of buf target = some i) :
    ∃ pre post, buf = pre ++ target :: post ∧ pre.length = i ∧ ¬ target ∈ pre := by
  induction buf generalizing i with
  | nil => simp [index_of] at h
  | cons c rest ih =>
    by_cases hc : c = target
    · subst hc
      simp [index_of] at h
      exact ⟨[], rest, by simp, by simp [← h], by simp⟩
    · simp [index_of, hc] at h
      obtain ⟨j, hj, hji⟩ := h
      obtain ⟨pre, post, hbuf, hlen, hmem⟩ := ih hj
      exact ⟨c :: pre, post, by simp [hbuf], by simp [hlen, hji], by
        simp [hmem]
        exact fun he => hc he.symm⟩

theorem index_of_append_cons {pre post : List Nat} {target : Nat}
    (h : ¬ target ∈ pre) :
    index_of (pre ++ target :: post) target = some pre.length := by
  induction pre with
  | nil => simp [index_of]
  | cons c rest ih =>
    have hc : ¬ c = target := by
      intro he; exact h (by simp [he])
    have hr : ¬ target ∈ rest := fun hm => h (by simp [hm])
    simp [index_of, hc, ih hr]

theorem index_of_none {buf : List Nat} {target : Nat}
    (h : ¬ target ∈ buf) : index_of buf target = none := by
  induction buf with
  | nil => rfl
  | cons c rest ih =>
    have hc : ¬ c = target := by intro he; exact h (by simp [he])
    have hr : ¬ target ∈ rest := fun hm => h (by simp [hm])
    simp [index_of, hc, ih hr]

/-- Modelled from the spec: `diffr_lib::LineSplit`, the append-only line
store.  `data` is the byte arena; `lineLens` the per-line byte counts
("a mapping from line index to (start, end) byte range", lines appended
in arrival order).  A newly appended segment extends the current line
unless the stored data already ends with a newline, so the several
segments `add_raw_line` appends for one input line form one stored line. -/
structure LineSplit where
  data : List Nat
  lineLens : List Nat
deriving DecidableEq, Repr

/-- Modelled from the spec: `LineSplit::len`, the number of stored bytes
(`main.rs` uses it as a byte offset into `data`). -/
def LineSplit.len (ls : LineSplit) : Nat := ls.data.length

/-- Modelled from the spec: `LineSplit::append_line`. -/
def LineSplit.append_line (ls : LineSplit) (line : List Nat) : LineSplit :=
  if ls.lineLens = [] ∨ ls.data.getLast? = some 10 then
    ⟨ls.data ++ line, ls.lineLens ++ [line.length]⟩
  else
    ⟨ls.data ++ line, ls.lineLens.dropLast ++ [ls.lineLens.getLastD 0 + line.length]⟩

/-- Helper for `LineSplit.ranges`: turn line lengths into
`(start, end)` ranges from a running offset. -/
def rangesFrom : Nat → List Nat → List (Nat × Nat)
  | _, [] => []
  | start, n :: rest => (start, start + n) :: rangesFrom (start + n) rest

/-- Modelled from the spec: `LineSplit::iter`, the `(start, end)` byte
range of each stored line. -/
def LineSplit.ranges (ls : LineSplit) : List (Nat × Nat) :=
  rangesFrom 0 ls.lineLens

/-- Modelled from the spec: `LineSplit::clear` (also the initial state). -/
def LineSplit.empty : LineSplit := ⟨[], []⟩

/-- Fueled unrolling of the `while i < len` loop of `add_raw_line` in
`main.rs`: skip the escape run, copy bytes up to the next `ESC '['`,
repeat.  `none` means the fuel ran out.  Every productive iteration
consumes at least one byte, and an unproductive iteration repeats the
same state forever, so `line.length + 1` fuel distinguishes the two. -/
def addRawGo : Nat → LineSplit → List Nat → Option LineSplit
  | 0, _, _ => none
  | fuel + 1, dst, rem =>
    if rem = [] then some dst
    else
      let rem1 := rem.drop (skip_all_escape_code rem)
      let tok := skip_token rem1
      addRawGo fuel (dst.append_line (rem1.take tok)) (rem1.drop tok)

/-- Embedding of `add_raw_line` from `main.rs` (fuel `line.length + 1`;
`none` reports that the Rust loop never terminates on this input). -/
def add_raw_line (dst : LineSplit) (line : List Nat) : Option LineSplit :=
  addRawGo (line.length + 1) dst line

/-- Modelled from the spec: `diffr_lib::HashedSpan` restricted to
`offset` and `length`.  The spec's `hash` field is a deterministic
function of `buffer[offset..offset+length]` (equal for equal slices);
none of the verified claims mention it, so it is left implicit. -/
structure HashedSpan where
  offset : Nat
  length : Nat
deriving DecidableEq, Repr

/-- Modelled from the spec: the single-pass tokenizer loop.  `pos` is
the arena offset of the head of the remaining bytes; `run = some start`
means a word token began at `start` and extends to `pos`.  Whitespace
bytes are dropped, word bytes coalesce, every other byte is its own
token. -/
def tokenizeGo (pos : Nat) (run : Option Nat) : List Nat → List HashedSpan
  | [] =>
    match run with
    | some start => [⟨start, pos - start⟩]
    | none => []
  | b :: rest =>
    if isWordByte b then
      tokenizeGo (pos + 1) (some (run.getD pos)) rest
    else
      let flushed : List HashedSpan :=
        match run with
        | some start => [⟨start, pos - start⟩]
        | none => []
      if isTokWs b then flushed ++ tokenizeGo (pos + 1) none rest
      else flushed ++ (⟨pos, 1⟩ :: tokenizeGo (pos + 1) none rest)

/-- Modelled from the spec: `diffr_lib::tokenize(data, ofs, tokens)`,
the spans of `data[ofs..]` (appended to the destination vector by the
caller). -/
def tokenize (data : List Nat) (ofs : Nat) : List HashedSpan :=
  tokenizeGo ofs none (data.drop ofs)

/-- Per-hunk mutable state of `HunkBuffer` (the scratch vectors `v` and
`diff_buffer` belong to the external diff computation and the config and
stats are threaded separately). -/
structure HunkState where
  lines : LineSplit
  added_tokens : List HashedSpan
  removed_tokens : List HashedSpan
deriving DecidableEq, Repr

/-- The empty hunk state (`HunkBuffer::new`). -/
def HunkState.empty : HunkState := ⟨LineSplit.empty, [], []⟩

/-- Count of the leading run of Rust-ASCII-whitespace bytes. -/
def wsRun : List Nat → Nat
  | [] => 0
  | b :: rest => if isRustWs b then wsRun rest + 1 else 0

/-- Embedding of `HunkBuffer::push_aux` from `main.rs`: remember
`ofs = lines.len() + 1`, append the stripped line, advance `ofs` while
`line[ofs]` is ASCII whitespace (note: `ofs` is an arena offset but
indexes the raw `line`), then tokenize the arena from `ofs` and append
the spans to the chosen token vector. -/
def HunkState.push_aux (s : HunkState) (line : List Nat) (added : Bool) :
    Option HunkState :=
  let ofs0 := s.lines.len + 1
  match add_raw_line s.lines line with
  | none => none
  | some lines2 =>
    let ofs := ofs0 + wsRun (line.drop ofs0)
    let toks := tokenize lines2.data ofs
    some (if added then
      { s with lines := lines2, added_tokens := s.added_tokens ++ toks }
    else
      { s with lines := lines2, removed_tokens := s.removed_tokens ++ toks })

/-- Embedding of `HunkBuffer::push_added`. -/
def HunkState.push_added (s : HunkState) (line : List Nat) : Option HunkState :=
  s.push_aux line true

/-- Embedding of `HunkBuffer::push_removed`. -/
def HunkState.push_removed (s : HunkState) (line : List Nat) : Option HunkState :=
  s.push_aux line false

/-- The cursor after the skip at the top of `paint_line` in `main.rs`:
`y = data_lo + 1`, then advance while `y < data_hi` and `data[y]` is
ASCII whitespace. -/
def paintStart (data : List Nat) (dataLo dataHi : Nat) : Nat :=
  dataLo + 1 + wsRun ((data.drop (dataLo + 1)).take (dataHi - (dataLo + 1)))

/-- Embedding of the `while let Some((lo, hi)) = shared.peek()` loop of
`HunkBuffer::paint_line`, structural on the iterator's remaining
elements.  Returns the emitted events, the final cursor, and the
intervals still in the iterator; `none` models the case where the Rust
loop hits `continue` without advancing the iterator or the cursor and
therefore never terminates. -/
def paintLoop (data : List Nat) (dataLo dataHi : Nat) (noHl hl : ColorSpec) :
    Nat → List (Nat × Nat) → Option (List OutEvent × Nat × List (Nat × Nat))
  | y, [] => some ([], y, [])
  | y, (lo, hi) :: rest =>
    if dataHi ≤ y then some ([], y, (lo, hi) :: rest)
    else
      let lo1 := max (min lo dataHi) y
      let hi1 := min hi dataHi
      if hi1 ≤ dataLo then paintLoop data dataLo dataHi noHl hl y rest
      else if hi1 < lo1 then none
      else
        let ev := output data y lo1 hl ++ output data lo1 hi1 noHl
        if dataHi ≤ hi then some (ev, hi1, (lo, hi) :: rest)
        else
          (paintLoop data dataLo dataHi noHl hl hi1 rest).map
            (fun r => (ev ++ r.1, r.2.1, r.2.2))

/-- Embedding of `HunkBuffer::paint_line` from `main.rs`: emit the
marker and leading whitespace under `noHl`, run the interval loop, then
emit the rest of the line under `hl`. -/
def paint_line (data : List Nat) (dataLo dataHi : Nat) (noHl hl : ColorSpec)
    (shared : List (Nat × Nat)) : Option (List OutEvent × List (Nat × Nat)) :=
  let y0 := paintStart data dataLo dataHi
  match paintLoop data dataLo dataHi noHl hl y0 shared with
  | none => none
  | some (ev, yf, rem) =>
    some (output data dataLo y0 noHl ++ ev ++ output data yf dataHi hl, rem)

/-- The painter policy exactly as the claim words it: skip intervals
that do not reach past `dataLo`; for each interval overlapping the rest
of the line emit the gap `[y, clamped lo)` under `hl` and the clamped
interval under `noHl`; keep (do not advance past) an interval whose
`hi` reaches the line end. -/
def paintClaimGo (data : List Nat) (dataLo dataHi : Nat) (noHl hl : ColorSpec) :
    Nat → List (Nat × Nat) → List OutEvent × Nat × List (Nat × Nat)
  | y, [] => ([], y, [])
  | y, (lo, hi) :: rest =>
    if dataHi ≤ y then ([], y, (lo, hi) :: rest)
    else if hi ≤ dataLo then paintClaimGo data dataLo dataHi noHl hl y rest
    else
      let lo1 := max (min lo dataHi) y
      let hi1 := min hi dataHi
      let ev := output data y lo1 hl ++ output data lo1 hi1 noHl
      if dataHi ≤ hi then (ev, hi1, (lo, hi) :: rest)
      else
        let r := paintClaimGo data dataLo dataHi noHl hl hi1 rest
        (ev ++ r.1, r.2.1, r.2.2)

/-- The whole-line painter policy as the claim words it (compared with
`paint_line` in the claim's theorem). -/
def paint_line_claimed (data : List Nat) (dataLo dataHi : Nat)
    (noHl hl : ColorSpec) (shared : List (Nat × Nat)) :
    List OutEvent × List (Nat × Nat) :=
  let y0 := paintStart data dataLo dataHi
  let r := paintClaimGo data dataLo dataHi noHl hl y0 shared
  (output data dataLo y0 noHl ++ r.1 ++ output data r.2.1 dataHi hl, r.2.2)

/-- Embedding of the per-line loop of `HunkBuffer::process`: paint
`'+'`/`'-'` lines with the matching faces and shared-interval iterator,
echo other lines under the default color spec.  The two iterators are
threaded across lines.  `none` propagates a diverging `paint_line`. -/
def processLines (cfg : AppConfig) (data : List Nat) :
    List (Nat × Nat) → List (Nat × Nat) → List (Nat × Nat) →
    Option (List OutEvent × List (Nat × Nat) × List (Nat × Nat))
  | [], sharedAdded, sharedRemoved => some ([], sharedAdded, sharedRemoved)
  | (start, stop) :: rest, sharedAdded, sharedRemoved =>
    let first := data.getD start 0
    if first = 45 then
      match paint_line data start stop cfg.removed_face cfg.refine_removed_face
          sharedRemoved with
      | none => none
      | some (ev, sharedRemoved2) =>
        (processLines cfg data rest sharedAdded sharedRemoved2).map
          (fun r => (ev ++ r.1, r.2))
    else if first = 43 then
      match paint_line data start stop cfg.added_face cfg.refine_added_face
          sharedAdded with
      | none => none
      | some (ev, sharedAdded2) =>
        (processLines cfg data rest sharedAdded2 sharedRemoved).map
          (fun r => (ev ++ r.1, r.2))
    else
      (processLines cfg data rest sharedAdded sharedRemoved).map
        (fun r => (output data start stop ColorSpec.default ++ r.1, r.2))

/-- The type of the external refinement pipeline of `diffr_lib` (not in
this repository's `src/`): from the line store and the removed and added
token vectors, `diff`, `shared_spans`, `optimize_partition` and
`shared_segments` produce the shared byte intervals for the added and
the removed side.  `HunkBuffer::process` is verified for every such
function. -/
def RefinePipeline : Type :=
  LineSplit → List HashedSpan → List HashedSpan →
    List (Nat × Nat) × List (Nat × Nat)

/-- Embedding of `HunkBuffer::process` from `main.rs`: run the external
refinement, paint every stored line in order, then clear the line store
and both token vectors. -/
def process (refine : RefinePipeline) (cfg : AppConfig) (s : HunkState) :
    Option (List OutEvent × HunkState) :=
  let shared := refine s.lines s.removed_tokens s.added_tokens
  match processLines cfg s.lines.data s.lines.ranges shared.1 shared.2 with
  | none => none
  | some (ev, _, _) => some (ev, HunkState.empty)

/-- Embedding of one iteration of the driver loop in `try_main`
(`main.rs` lines 103–115): dispatch on `(in_hunk, first_after_escape)`,
push or store hunk lines, and at a hunk boundary flush the hunk and echo
the line verbatim under the default color spec. -/
def driverStep (refine : RefinePipeline) (cfg : AppConfig) (inHunk : Bool)
    (s : HunkState) (buffer : List Nat) :
    Option (List OutEvent × Bool × HunkState) :=
  let fae := first_after_escape buffer
  if inHunk = true ∧ fae = some 43 then
    (s.push_added buffer).map (fun s2 => ([], true, s2))
  else if inHunk = true ∧ fae = some 45 then
    (s.push_removed buffer).map (fun s2 => ([], true, s2))
  else if inHunk = true ∧ fae = some 32 then
    (add_raw_line s.lines buffer).map
      (fun ls => ([], true, { s with lines := ls }))
  else
    (if inHunk then process refine cfg s else some ([], s)).map
      (fun r => (r.1 ++ output buffer 0 buffer.length ColorSpec.default,
        decide (fae = some 64), r.2))

/-- The driver loop of `try_main` folded over the input lines. -/
def driverLoop (refine : RefinePipeline) (cfg : AppConfig) :
    Bool → HunkState → List (List Nat) →
    Option (List OutEvent × Bool × HunkState)
  | inHunk, s, [] => some ([], inHunk, s)
  | inHunk, s, line :: rest =>
    match driverStep refine cfg inHunk s line with
    | none => none
    | some (ev, inHunk2, s2) =>
      (driverLoop refine cfg inHunk2 s2 rest).map
        (fun r => (ev ++ r.1, r.2))

/-- Embedding of `try_main` from `main.rs`: run the driver loop over the
input lines, then flush the remaining hunk unconditionally. -/
def try_main (refine : RefinePipeline) (cfg : AppConfig)
    (inputLines : List (List Nat)) : Option (List OutEvent) :=
  match driverLoop refine cfg false HunkState.empty inputLines with
  | none => none
  | some (ev, _, s) =>
    match process refine cfg s with
    | none => none
    | some (ev2, _) => some (ev ++ ev2)

/-- The error kinds `main` distinguishes (`std::io::ErrorKind` collapsed
to what the match inspects). -/
inductive ErrKind
  | brokenPipe
  | otherKind
deriving DecidableEq, Repr

/-- An `std::io::Error`: its kind and its display text. -/
structure IOErr where
  kind : ErrKind
  msg : String
deriving DecidableEq, Repr

/-- Embedding of the `match try_main(config)` in `main` from `main.rs`:
exit code (0 on success, `exit(-1)` = 255 otherwise) and the lines
printed to standard error. -/
def mainHandle (r : Except IOErr Unit) : Nat × List String :=
  match r with
  | .ok _ => (0, [])
  | .error e =>
    if e.kind = ErrKind.brokenPipe then (0, [])
    else (255, [String.append "io error: " e.msg])

theorem skipAllAux_nil (fuel : Nat) : skipAllAux fuel [] = 0 := by
  cases fuel with
  | zero => rfl
  | succ k => simp [skipAllAux, skip_escape_code]

theorem skip_escape_code_bounds {buf : List Nat} {n : Nat}
    (h : skip_escape_code buf = some n) : 3 ≤ n ∧ n ≤ buf.length := by
  unfold skip_escape_code at h
  split at h
  case _ rest =>
    simp only [Option.map_eq_some'] at h
    obtain ⟨i, hi, hn⟩ := h
    obtain ⟨pre, post, hrest, hlen, _⟩ := index_of_some hi
    subst hrest
    simp [← hn, ← hlen]
  case _ => exact absurd h (by simp)

theorem skipAllAux_congr :
    ∀ (fuel1 fuel2 : Nat) (buf : List Nat), buf.length ≤ fuel1 →
      buf.length ≤ fuel2 → skipAllAux fuel1 buf = skipAllAux fuel2 buf := by
  intro fuel1
  induction fuel1 with
  | zero =>
    intro fuel2 buf h1 _
    have : buf = [] := List.length_eq_zero.mp (Nat.le_zero.mp h1)
    subst this
    simp [skipAllAux_nil]
  | succ k ih =>
    intro fuel2 buf h1 h2
    cases fuel2 with
    | zero =>
      have : buf = [] := List.length_eq_zero.mp (Nat.le_zero.mp h2)
      subst this
      simp [skipAllAux_nil]
    | succ m =>
      simp only [skipAllAux]
      cases hsk : skip_escape_code buf with
      | none => rfl
      | some n =>
        obtain ⟨h3, hlen⟩ := skip_escape_code_bounds hsk
        have hd : (buf.drop n).length = buf.length - n := by
          simp [List.length_drop]
        have := ih m (buf.drop n) (by omega) (by omega)
        simp [this]

theorem skip_all_none {buf : List Nat} (h : skip_escape_code buf = none) :
    skip_all_escape_code buf = 0 := by
  unfold skip_all_escape_code
  cases hl : buf.length with
  | zero => simp [skipAllAux]
  | succ k => simp [skipAllAux, h]

theorem skip_all_some {buf : List Nat} {n : Nat}
    (h : skip_escape_code buf = some n) :
    skip_all_escape_code buf = n + skip_all_escape_code (buf.drop n) := by
  obtain ⟨h3, hlen⟩ := skip_escape_code_bounds h
  unfold skip_all_escape_code
  cases hl : buf.length with
  | zero => omega
  | succ k =>
    simp only [skipAllAux, h]
    have hd : (buf.drop n).length = buf.length - n := by
      simp [List.length_drop]
    have := skipAllAux_congr k (buf.drop n).length (buf.drop n)
      (by omega) (by omega)
    simp [this]

theorem skip_escape_of_seq {s : List Nat} (hs : isSgrSeq s) (t : List Nat) :
    skip_escape_code (s ++ t) = some s.length := by
  obtain ⟨body, rfl, hm⟩ := hs
  have : (27 : Nat) :: 91 :: (body ++ [109]) ++ t
      = 27 :: 91 :: (body ++ 109 :: t) := by simp
  rw [this]
  simp [skip_escape_code, index_of_append_cons hm]

theorem skip_escape_some_decomp {buf : List Nat} {n : Nat}
    (h : skip_escape_code buf = some n) :
    ∃ s t, buf = s ++ t ∧ isSgrSeq s ∧ s.length = n := by
  unfold skip_escape_code at h
  split at h
  case _ rest =>
    simp only [Option.map_eq_some'] at h
    obtain ⟨i, hi, hn⟩ := h
    obtain ⟨pre, post, hrest, hlen, hmem⟩ := index_of_some hi
    refine ⟨27 :: 91 :: (pre ++ [109]), post, ?_, ⟨pre, rfl, hmem⟩, ?_⟩
    · simp [hrest]
    · simp [← hn, ← hlen]
  case _ => exact absurd h (by simp)

theorem skip_all_seq {s : List Nat} (hs : isSgrSeq s) (t : List Nat) :
    skip_all_escape_code (s ++ t) = s.length + skip_all_escape_code t := by
  rw [skip_all_some (skip_escape_of_seq hs t)]
  congr 1
  congr 1
  exact List.drop_left s t

theorem sgrRun_take_aux :
    ∀ (N : Nat) (buf : List Nat), buf.length ≤ N →
      SgrRun (buf.take (skip_all_escape_code buf)) := by
  intro N
  induction N with
  | zero =>
    intro buf h
    have : buf = [] := List.length_eq_zero.mp (Nat.le_zero.mp h)
    subst this
    exact SgrRun.nil
  | succ k ih =>
    intro buf h
    cases hsk : skip_escape_code buf with
    | none =>
      rw [skip_all_none hsk]
      exact SgrRun.nil
    | some n =>
      obtain ⟨s, t, rfl, hseq, hslen⟩ := skip_escape_some_decomp hsk
      rw [skip_all_seq hseq]
      have htake : (s ++ t).take (s.length + skip_all_escape_code t)
          = s ++ t.take (skip_all_escape_code t) := by
        rw [List.take_append]
      rw [htake]
      have h3 : 3 ≤ s.length := by
        have := (skip_escape_code_bounds hsk).1
        omega
      have hlt : t.length ≤ k := by
        have := List.length_append s t
        omega
      exact SgrRun.cons s _ hseq (ih t hlt)

theorem sgrRun_le {r : List Nat} (hr : SgrRun r) :
    ∀ t, r.length ≤ skip_all_escape_code (r ++ t) := by
  induction hr with
  | nil => intro t; exact Nat.zero_le _
  | cons s r2 hs _ ih =>
    intro t
    have : (s ++ r2) ++ t = s ++ (r2 ++ t) := by simp
    rw [this, skip_all_seq hs]
    have := ih t
    simp
    omega

theorem drop_head_get (l : List Nat) : ∀ n, (l.drop n).head? = l[n]? := by
  induction l with
  | nil => intro n; simp
  | cons a t ih =>
    intro n
    cases n with
    | zero => simp
    | succ m => simp [ih m]

theorem skip_escape_none_shape {buf : List Nat}
    (h : ∀ rest, buf ≠ 27 :: 91 :: rest) : skip_escape_code buf = none := by
  unfold skip_escape_code
  split
  case _ rest => exact absurd rfl (h rest)
  case _ => rfl

/-- C4: `skip_all_escape_code(buf)` is the total byte length of the
maximal run of consecutive CSI SGR sequences beginning at `buf[0]`
(the prefix it accounts for is a run of SGR sequences, and no longer
prefix is); it returns 0 when `buf` does not begin with `ESC '['` or
when the first sequence has no terminating `'m'`; in particular it
returns 10 on `"\x1b[42m\x1b[33m@@@"` and 0 on `"\x1b[42@@@"`. -/
theorem c4_skip_all_escape_spec :
    (∀ buf : List Nat, SgrRun (buf.take (skip_all_escape_code buf)))
    ∧ (∀ (buf : List Nat) (n : Nat), n ≤ buf.length → SgrRun (buf.take n) →
        n ≤ skip_all_escape_code buf)
    ∧ (∀ buf : List Nat, (∀ rest, buf ≠ 27 :: 91 :: rest) →
        skip_all_escape_code buf = 0)
    ∧ (∀ (buf rest : List Nat), buf = 27 :: 91 :: rest → ¬ 109 ∈ rest →
        skip_all_escape_code buf = 0)
    ∧ skip_all_escape_code [27, 91, 52, 50, 109, 27, 91, 51, 51, 109, 64, 64, 64] = 10
    ∧ skip_all_escape_code [27, 91, 52, 50, 64, 64, 64] = 0 := by
  refine ⟨?_, ?_, ?_, ?_, by decide, by decide⟩
  · intro buf
    exact sgrRun_take_aux buf.length buf le_rfl
  · intro buf n hn hrun
    have h := sgrRun_le hrun (buf.drop n)
    rw [List.take_append_drop] at h
    have hlen : (buf.take n).length = n := by
      simp [List.length_take]
      omega
    omega
  · intro buf h
    exact skip_all_none (skip_escape_none_shape h)
  · intro buf rest hbuf hmem
    subst hbuf
    apply skip_all_none
    simp [skip_escape_code, index_of_none hmem]

theorem c4_skip_all_escape_spec_witness :
    3 ≤ skip_all_escape_code [27, 91, 109, 65]
    ∧ skip_all_escape_code [65, 66] = 0
    ∧ skip_all_escape_code [27, 91, 52] = 0 := by
  refine ⟨?_, ?_, ?_⟩
  · have hrun : SgrRun ([27, 91, 109] ++ []) :=
      SgrRun.cons _ _ ⟨[], by simp, by simp⟩ SgrRun.nil
    have htake : ([27, 91, 109, 65] : List Nat).take 3 = [27, 91, 109] := rfl
    exact c4_skip_all_escape_spec.2.1 [27, 91, 109, 65] 3 (by simp)
      (by rw [htake]; simpa using hrun)
  · exact c4_skip_all_escape_spec.2.2.1 [65, 66]
      (by intro rest h; simp at h)
  · exact c4_skip_all_escape_spec.2.2.2.1 [27, 91, 52] [52] rfl (by decide)

/-- C6: `first_after_escape(buf)` is `buf[skip_all_escape_code(buf)]`
when that index is in bounds, and `None` otherwise (Lean's `l[i]?`
is exactly this partial lookup). -/
theorem c6_first_after_escape_spec (buf : List Nat) :
    first_after_escape buf = buf[skip_all_escape_code buf]? := by
  unfold first_after_escape
  exact drop_head_get buf _

theorem skip_all_idem_aux :
    ∀ (N : Nat) (buf : List Nat), buf.length ≤ N →
      skip_all_escape_code (buf.drop (skip_all_escape_code buf)) = 0 := by
  intro N
  induction N with
  | zero =>
    intro buf h
    have : buf = [] := List.length_eq_zero.mp (Nat.le_zero.mp h)
    subst this
    simp [skip_all_escape_code, skipAllAux_nil]
  | succ k ih =>
    intro buf h
    cases hsk : skip_escape_code buf with
    | none =>
      rw [skip_all_none hsk]
      simpa using skip_all_none hsk
    | some n =>
      rw [skip_all_some hsk, ← List.drop_drop]
      obtain ⟨h3, hlen⟩ := skip_escape_code_bounds hsk
      exact ih (buf.drop n) (by simp [List.length_drop]; omega)

/-- C7: escape skipping is idempotent: after consuming
`skip_all_escape_code buf` bytes, a second skip consumes nothing. -/
theorem c7_skip_all_idempotent (buf : List Nat) :
    skip_all_escape_code (buf.drop (skip_all_escape_code buf)) = 0 :=
  skip_all_idem_aux buf.length buf le_rfl

theorem dropLast_append_of_getLast {l : List Nat} {x : Nat}
    (h : l.getLast? = some x) : l.dropLast ++ [x] = l := by
  induction l with
  | nil => simp at h
  | cons a t ih =>
    cases t with
    | nil =>
      simp at h
      simp [h]
    | cons b u =>
      have ht : (b :: u).getLast? = some x := by
        simpa [List.getLast?] using h
      simp only [List.dropLast_cons₂, List.cons_append, ih ht]

theorem writtenBytes_append (a b : List OutEvent) :
    writtenBytes (a ++ b) = writtenBytes a ++ writtenBytes b := by
  induction a with
  | nil => simp [writtenBytes]
  | cons e r ih =>
    cases e with
    | setColor c => simp [writtenBytes, ih]
    | write bs => simp [writtenBytes, ih]
    | reset => simp [writtenBytes, ih]

theorem writtenBytes_output (buf : List Nat) (lo hi : Nat) (c : ColorSpec) :
    writtenBytes (output buf lo hi c) = (buf.take (min hi buf.length)).drop lo := by
  unfold output
  by_cases h : min hi buf.length ≤ lo
  · have hlen : ((buf.take (min hi buf.length)).drop lo) = [] := by
      apply List.drop_eq_nil_of_le
      simp [List.length_take]
      omega
    simp [h, hlen, writtenBytes]
  · simp only [h, if_false]
    by_cases hnl : ((buf.take (min hi buf.length)).drop lo).getLast? = some 10
    · simp only [hnl, if_pos rfl, writtenBytes]
      simpa using dropLast_append_of_getLast hnl
    · simp [hnl, writtenBytes]

/-- C10: the write primitive `output` is total in its index arguments:
it clamps `hi` to the buffer length, emits nothing when the clamped
range is empty, and otherwise writes exactly the bytes of
`buf[lo..hi]`, the trailing newline (if any) after the color reset. -/
theorem c10_output_total (buf : List Nat) (lo hi : Nat) (c : ColorSpec) :
    writtenBytes (output buf lo hi c) = (buf.take (min hi buf.length)).drop lo
    ∧ (min hi buf.length ≤ lo → output buf lo hi c = [])
    ∧ (lo < min hi buf.length →
        (((buf.take (min hi buf.length)).drop lo).getLast? = some 10 →
          output buf lo hi c =
            [.setColor c,
             .write ((buf.take (min hi buf.length)).drop lo).dropLast,
             .reset, .write [10]])
        ∧ (((buf.take (min hi buf.length)).drop lo).getLast? ≠ some 10 →
          output buf lo hi c =
            [.setColor c, .write ((buf.take (min hi buf.length)).drop lo),
             .reset])) := by
  refine ⟨writtenBytes_output buf lo hi c, ?_, ?_⟩
  · intro h
    simp [output, h]
  · intro h
    constructor
    · intro hnl
      simp [output, Nat.not_le.mpr h, hnl]
    · intro hnl
      simp [output, Nat.not_le.mpr h, hnl]

theorem c10_output_total_witness :
    writtenBytes (output [65, 10] 0 5 ColorSpec.default) = [65, 10]
    ∧ output [65, 10] 3 5 ColorSpec.default = []
    ∧ output [65, 10] 0 5 ColorSpec.default =
        [.setColor ColorSpec.default, .write [65], .reset, .write [10]] := by
  refine ⟨?_, ?_, ?_⟩
  · have h := (c10_output_total [65, 10] 0 5 ColorSpec.default).1
    simpa using h
  · exact (c10_output_total [65, 10] 3 5 ColorSpec.default).2.1 (by decide)
  · have h := ((c10_output_total [65, 10] 0 5 ColorSpec.default).2.2
      (by decide)).1 (by decide)
    simpa using h

/-- C5 (code bug): `add_raw_line` does not terminate on a line holding
a malformed `ESC '['` with no terminating `'m'`.  On `[27, 91, 120]`
(`"\x1b[x"`), `skip_all_escape_code` returns 0 and `skip_token` returns
0, so the loop cursor never advances: the fueled embedding of the loop
returns `none` for every fuel, for every starting line store. -/
theorem c5_add_raw_line_divergence :
    (∀ (fuel : Nat) (dst : LineSplit), addRawGo fuel dst [27, 91, 120] = none)
    ∧ add_raw_line LineSplit.empty [27, 91, 120] = none := by
  have main : ∀ (fuel : Nat) (dst : LineSplit),
      addRawGo fuel dst [27, 91, 120] = none := by
    intro fuel
    induction fuel with
    | zero => intro dst; rfl
    | succ k ih =>
      intro dst
      have h1 : skip_all_escape_code [27, 91, 120] = 0 := by decide
      have h2 : skip_token [27, 91, 120] = 0 := by decide
      simp only [addRawGo, h1, h2, List.drop_zero, List.take_zero]
      simp only [if_neg (by simp : ¬([27, 91, 120] : List Nat) = [])]
      exact ih _
  exact ⟨main, main 4 LineSplit.empty⟩

/-- C9: whenever `HunkBuffer::process` returns successfully, the line
store and both token vectors of the resulting state are empty — for
every external refinement pipeline, configuration and starting state. -/
theorem c9_process_clears (refine : RefinePipeline) (cfg : AppConfig)
    (s : HunkState) (ev : List OutEvent) (s2 : HunkState)
    (h : process refine cfg s = some (ev, s2)) :
    s2.lines.data = [] ∧ s2.lines.lineLens = []
    ∧ s2.added_tokens = [] ∧ s2.removed_tokens = [] := by
  simp only [process] at h
  split at h
  · exact absurd h (by simp)
  · simp only [Option.some.injEq, Prod.mk.injEq] at h
    rw [← h.2]
    exact ⟨rfl, rfl, rfl, rfl⟩

theorem c9_process_clears_witness :
    HunkState.empty.lines.data = [] ∧ HunkState.empty.lines.lineLens = []
    ∧ HunkState.empty.added_tokens = [] ∧ HunkState.empty.removed_tokens = [] :=
  c9_process_clears (fun _ _ _ => ([], [])) AppConfig.default HunkState.empty
    [] HunkState.empty rfl

/-- C8: the `match` in `main` swallows a broken-pipe failure of the
pipeline (exit success, nothing on stderr), and any other I/O error
exits non-zero with a diagnostic beginning with `"io error: "`. -/
theorem c8_error_exit (e : IOErr) :
    (e.kind = ErrKind.brokenPipe →
      mainHandle (Except.error e) = (0, []))
    ∧ (e.kind ≠ ErrKind.brokenPipe →
      (mainHandle (Except.error e)).1 ≠ 0
      ∧ ∃ rest, (mainHandle (Except.error e)).2
          = [String.append "io error: " rest]) := by
  constructor
  · intro h
    simp [mainHandle, h]
  · intro h
    refine ⟨?_, e.msg, ?_⟩
    · simp [mainHandle, h]
    · simp [mainHandle, h]

theorem c8_error_exit_witness :
    mainHandle (Except.error ⟨ErrKind.brokenPipe, "x"⟩) = (0, [])
    ∧ (mainHandle (Except.error ⟨ErrKind.otherKind, "x"⟩)).1 ≠ 0
    ∧ ∃ rest, (mainHandle (Except.error ⟨ErrKind.otherKind, "x"⟩)).2
        = [String.append "io error: " rest] := by
  refine ⟨?_, ?_⟩
  · exact (c8_error_exit ⟨ErrKind.brokenPipe, "x"⟩).1 rfl
  · exact (c8_error_exit ⟨ErrKind.otherKind, "x"⟩).2 (by simp)

theorem output_whole_line (l : List Nat) (c : ColorSpec) :
    writtenBytes (output l 0 l.length c) = l := by
  have h := writtenBytes_output l 0 l.length c
  simpa using h

theorem driverStep_outside (refine : RefinePipeline) (cfg : AppConfig)
    (s : HunkState) (buffer : List Nat)
    (h : first_after_escape buffer ≠ some 64) :
    driverStep refine cfg false s buffer
      = some (output buffer 0 buffer.length ColorSpec.default, false, s) := by
  simp [driverStep, h]

theorem driverLoop_outside (refine : RefinePipeline) (cfg : AppConfig) :
    ∀ (inputLines : List (List Nat)) (s : HunkState),
      (∀ l ∈ inputLines, first_after_escape l ≠ some 64) →
      driverLoop refine cfg false s inputLines
        = some ((inputLines.map
            (fun l => output l 0 l.length ColorSpec.default)).flatten, false, s) := by
  intro inputLines
  induction inputLines with
  | nil => intro s _; rfl
  | cons line rest ih =>
    intro s h
    have hline : first_after_escape line ≠ some 64 := h line (by simp)
    have hrest : ∀ l ∈ rest, first_after_escape l ≠ some 64 :=
      fun l hl => h l (by simp [hl])
    simp only [driverLoop, driverStep_outside refine cfg s line hline, ih s hrest]
    simp

theorem process_empty (refine : RefinePipeline) (cfg : AppConfig) :
    process refine cfg HunkState.empty = some ([], HunkState.empty) := rfl

theorem writtenBytes_echo (inputLines : List (List Nat)) :
    writtenBytes ((inputLines.map
        (fun l => output l 0 l.length ColorSpec.default)).flatten)
      = inputLines.flatten := by
  induction inputLines with
  | nil => rfl
  | cons line rest ih =>
    simp only [List.map_cons, List.flatten_cons, writtenBytes_append,
      output_whole_line, ih]

/-- C1: on input whose lines never have `'@'` as first non-escape byte,
the driver loop echoes every line verbatim under the default color
spec, never touches the hunk state, and the whole pipeline's written
byte stream equals the input byte stream. -/
theorem c1_passthrough (refine : RefinePipeline) (cfg : AppConfig)
    (inputLines : List (List Nat))
    (h : ∀ l ∈ inputLines, first_after_escape l ≠ some 64) :
    driverLoop refine cfg false HunkState.empty inputLines
      = some ((inputLines.map
          (fun l => output l 0 l.length ColorSpec.default)).flatten,
          false, HunkState.empty)
    ∧ try_main refine cfg inputLines
      = some ((inputLines.map
          (fun l => output l 0 l.length ColorSpec.default)).flatten)
    ∧ writtenBytes ((inputLines.map
          (fun l => output l 0 l.length ColorSpec.default)).flatten)
      = inputLines.flatten := by
  have hloop := driverLoop_outside refine cfg inputLines HunkState.empty h
  refine ⟨hloop, ?_, writtenBytes_echo inputLines⟩
  simp [try_main, hloop, process_empty]

theorem c1_passthrough_witness :
    try_main (fun _ _ _ => ([], [])) AppConfig.default [[104, 105, 10]]
      = some [.setColor ColorSpec.default, .write [104, 105], .reset,
          .write [10]] := by
  have h := (c1_passthrough (fun _ _ _ => ([], [])) AppConfig.default
    [[104, 105, 10]] (by decide)).2.1
  rw [h]
  rfl

theorem paintLoop_eq_claim (data : List Nat) (dataLo dataHi : Nat)
    (noHl hl : ColorSpec) (hlt : dataLo < dataHi) :
    ∀ (shared : List (Nat × Nat)) (y : Nat),
      (∀ p ∈ shared, p.1 ≤ p.2 ∧ (p.2 ≤ dataLo ∨ y ≤ p.2)) →
      shared.Pairwise (fun a b => a.2 ≤ b.2) →
      paintLoop data dataLo dataHi noHl hl y shared
        = some (paintClaimGo data dataLo dataHi noHl hl y shared) := by
  intro shared
  induction shared with
  | nil => intro y _ _; rfl
  | cons p rest ih =>
    obtain ⟨lo, hi⟩ := p
    intro y hcond hpw
    by_cases hy : dataHi ≤ y
    · simp [paintLoop, paintClaimGo, if_pos hy]
    · by_cases hskip : hi ≤ dataLo
      · have hhi1 : min hi dataHi ≤ dataLo := by omega
        have hrest : ∀ p ∈ rest, p.1 ≤ p.2 ∧ (p.2 ≤ dataLo ∨ y ≤ p.2) :=
          fun p hp => hcond p (by simp [hp])
        simp only [paintLoop, paintClaimGo, if_neg hy, if_pos hskip, if_pos hhi1]
        exact ih y hrest hpw.of_cons
      · obtain ⟨hlohi, hdisj⟩ := hcond (lo, hi) (by simp)
        have hyhi : y ≤ hi := by
          rcases hdisj with h1 | h1
          · omega
          · exact h1
        have hhi1 : ¬ min hi dataHi ≤ dataLo := by omega
        have hnolt : ¬ min hi dataHi < max (min lo dataHi) y := by omega
        by_cases hlast : dataHi ≤ hi
        · simp only [paintLoop, paintClaimGo, if_neg hy, if_neg hskip,
            if_neg hhi1, if_neg hnolt, if_pos hlast]
        · have hrest : ∀ p ∈ rest,
              p.1 ≤ p.2 ∧ (p.2 ≤ dataLo ∨ min hi dataHi ≤ p.2) := by
            intro p hp
            refine ⟨(hcond p (by simp [hp])).1, Or.inr ?_⟩
            have := (List.pairwise_cons.mp hpw).1 p hp
            omega
          simp only [paintLoop, paintClaimGo, if_neg hy, if_neg hskip,
            if_neg hhi1, if_neg hnolt, if_neg hlast,
            ih (min hi dataHi) hrest hpw.of_cons]
          simp

/-- C2: for every `'+'`/`'-'` line range, `paint_line` follows the
claimed policy — marker and leading whitespace under `no_highlight`,
then per overlapping shared interval the gap under `highlight` and the
clamped interval under `no_highlight`, the line remainder under
`highlight`, advancing the iterator only past intervals that end before
the line end — provided the intervals are well-formed (`lo ≤ hi`),
sorted by upper end, and none ends strictly between the marker and the
post-whitespace cursor (where the Rust loop would spin forever). -/
theorem c2_paint_policy (data : List Nat) (dataLo dataHi : Nat)
    (noHl hl : ColorSpec) (shared : List (Nat × Nat))
    (hlt : dataLo < dataHi)
    (hcond : ∀ p ∈ shared,
      p.1 ≤ p.2 ∧ (p.2 ≤ dataLo ∨ paintStart data dataLo dataHi ≤ p.2))
    (hpw : shared.Pairwise (fun a b => a.2 ≤ b.2)) :
    paint_line data dataLo dataHi noHl hl shared
      = some (paint_line_claimed data dataLo dataHi noHl hl shared) := by
  have h := paintLoop_eq_claim data dataLo dataHi noHl hl hlt shared
    (paintStart data dataLo dataHi) hcond hpw
  rcases hpc : paintClaimGo data dataLo dataHi noHl hl
      (paintStart data dataLo dataHi) shared with ⟨ev, yf, rem⟩
  simp only [paint_line, paint_line_claimed, h, hpc]

theorem c2_paint_policy_witness :
    paint_line [45, 97, 98, 10] 0 4 ColorSpec.default ColorSpec.default
        [(1, 2)]
      = some (paint_line_claimed [45, 97, 98, 10] 0 4 ColorSpec.default
          ColorSpec.default [(1, 2)]) := by
  apply c2_paint_policy
  · decide
  · decide
  · simp

theorem word_not_ws {b : Nat} (h : isWordByte b = true) : isTokWs b = false := by
  simp [isWordByte] at h
  simp [isTokWs]
  omega

theorem tokenizeGo_sound (data : List Nat) :
    ∀ (rest : List Nat) (pos : Nat) (run : Option Nat),
      rest = data.drop pos →
      (∀ st, run = some st → st ≤ pos ∧
        ∀ j, st ≤ j → j < pos → ∃ b, data[j]? = some b ∧ isWordByte b = true) →
      ∀ sp ∈ tokenizeGo pos run rest,
        (match run with | some st => st | none => pos) ≤ sp.offset ∧
        ∀ j, sp.offset ≤ j → j < sp.offset + sp.length →
          ∃ b, data[j]? = some b ∧ isTokWs b = false := by
  intro rest
  induction rest with
  | nil =>
    intro pos run hdrop hrun sp hsp
    cases run with
    | none => simp [tokenizeGo] at hsp
    | some st =>
      simp only [tokenizeGo, List.mem_singleton] at hsp
      subst hsp
      obtain ⟨hle, hword⟩ := hrun st rfl
      refine ⟨Nat.le_refl st, ?_⟩
      intro j hj1 hj2
      simp only at hj2
      obtain ⟨b, hb, hw⟩ := hword j hj1 (by omega)
      exact ⟨b, hb, word_not_ws hw⟩
  | cons b rest2 ih =>
    intro pos run hdrop hrun sp hsp
    have hb : data[pos]? = some b := by
      rw [← drop_head_get data pos, ← hdrop]
      rfl
    have hdrop2 : rest2 = data.drop (pos + 1) := by
      have h1 : (data.drop pos).drop 1 = data.drop (pos + 1) := by
        rw [List.drop_drop]
      rw [← h1, ← hdrop]
      rfl
    by_cases hw : isWordByte b = true
    · simp only [tokenizeGo, if_pos hw] at hsp
      have hrun2 : ∀ st, (some (run.getD pos)) = some st → st ≤ pos + 1 ∧
          ∀ j, st ≤ j → j < pos + 1 →
            ∃ c, data[j]? = some c ∧ isWordByte c = true := by
        intro st hst
        simp only [Option.some.injEq] at hst
        cases run with
        | none =>
          simp at hst
          subst hst
          exact ⟨by omega, fun j hj1 hj2 => by
            have : j = pos := by omega
            subst this
            exact ⟨b, hb, hw⟩⟩
        | some st0 =>
          simp at hst
          subst hst
          obtain ⟨hle0, hword0⟩ := hrun st0 rfl
          refine ⟨by omega, ?_⟩
          intro j hj1 hj2
          by_cases hjp : j < pos
          · exact hword0 j hj1 hjp
          · have : j = pos := by omega
            subst this
            exact ⟨b, hb, hw⟩
      have h := ih (pos + 1) (some (run.getD pos)) hdrop2 hrun2 sp hsp
      refine ⟨?_, h.2⟩
      have h1 := h.1
      cases run with
      | none => simpa using h1
      | some st0 => simpa using h1
    · simp only [tokenizeGo, if_neg hw] at hsp
      have hflush : ∀ sp2 ∈ (match run with
          | some start => [(⟨start, pos - start⟩ : HashedSpan)]
          | none => ([] : List HashedSpan)),
          (match run with | some st => st | none => pos) ≤ sp2.offset ∧
          ∀ j, sp2.offset ≤ j → j < sp2.offset + sp2.length →
            ∃ c, data[j]? = some c ∧ isTokWs c = false := by
        intro sp2 hsp2
        cases run with
        | none => simp at hsp2
        | some st =>
          simp only [List.mem_singleton] at hsp2
          subst hsp2
          obtain ⟨hle, hword⟩ := hrun st rfl
          refine ⟨Nat.le_refl st, ?_⟩
          intro j hj1 hj2
          simp only at hj2
          obtain ⟨c, hc, hcw⟩ := hword j hj1 (by omega)
          exact ⟨c, hc, word_not_ws hcw⟩
      have hrun2 : ∀ st, (none : Option Nat) = some st → st ≤ pos + 1 ∧
          ∀ j, st ≤ j → j < pos + 1 →
            ∃ c, data[j]? = some c ∧ isWordByte c = true := by
        intro st hst
        simp at hst
      have hbase : (match run with | some st => st | none => pos) ≤ pos := by
        cases run with
        | none => exact Nat.le_refl pos
        | some st0 => exact (hrun st0 rfl).1
      by_cases hts : isTokWs b = true
      · rw [if_pos hts] at hsp
        rcases List.mem_append.mp hsp with hmem | hmem
        · exact hflush sp hmem
        · have h := ih (pos + 1) none hdrop2 hrun2 sp hmem
          have h1 : pos + 1 ≤ sp.offset := h.1
          exact ⟨Nat.le_trans hbase (Nat.le_trans (Nat.le_succ pos) h1), h.2⟩
      · rw [if_neg hts] at hsp
        rcases List.mem_append.mp hsp with hmem | hmem
        · exact hflush sp hmem
        · rcases List.mem_cons.mp hmem with hsp1 | hmem2
          · subst hsp1
            refine ⟨hbase, ?_⟩
            intro j hj1 hj2
            simp only at hj1 hj2
            have : j = pos := by omega
            subst this
            exact ⟨b, hb, by simpa using hts⟩
          · have h := ih (pos + 1) none hdrop2 hrun2 sp hmem2
            have h1 : pos + 1 ≤ sp.offset := h.1
            exact ⟨Nat.le_trans hbase (Nat.le_trans (Nat.le_succ pos) h1), h.2⟩

/-- The tokenization start offset described by claim C3: one past the
marker byte (at arena position `markerPos`), then past the ASCII
whitespace immediately following it in the stored line. -/
def claimedTokenizeStart (data : List Nat) (markerPos : Nat) : Nat :=
  markerPos + 1 + wsRun (data.drop (markerPos + 1))

/-- C3 counterexample: push the line `"+ab \n"` into a hunk whose store
already holds `"-x\n"` (3 bytes).  `push_aux` computes
`ofs = lines.len() + 1 = 4` and then checks `line[4]` (a raw-line index,
not an arena index), which is `'\n'`, so it advances to 5 and tokenizes
the arena from offset 5, emitting only the token `"b"` at `(5, 1)` and
skipping the content byte `'a'`.  The claim's start — one past the
marker (arena position 3) plus the following whitespace (none: arena
position 4 holds `'a'`) — is 4 and would emit the token `"ab"` at
`(4, 2)`.  So tokenization does not start where the claim says on a
line that is not the first of its hunk. -/
theorem c3_push_tokenize_counterexample :
    HunkState.push_aux ⟨⟨[45, 120, 10], [3]⟩, [], []⟩ [43, 97, 98, 32, 10] true
      = some ⟨⟨[45, 120, 10, 43, 97, 98, 32, 10], [3, 5]⟩, [⟨5, 1⟩], []⟩
    ∧ claimedTokenizeStart [45, 120, 10, 43, 97, 98, 32, 10] 3 = 4
    ∧ tokenize [45, 120, 10, 43, 97, 98, 32, 10] 4 = [⟨4, 2⟩]
    ∧ ¬ ([(⟨5, 1⟩ : HashedSpan)] = [(⟨4, 2⟩ : HashedSpan)]) := by
  refine ⟨by decide, by decide, by decide, by decide⟩

/-- C3 amended: for every line pushed by `push_aux` (first of the hunk
or not), every newly emitted token span starts strictly past the
marker's arena position (the old store length) and covers no tokenizer
whitespace byte — so the marker and the leading indentation never fall
inside an emitted token, although the start offset itself is the
claim's marker-plus-whitespace skip only for the first line of a hunk. -/
theorem c3_push_tokenize_amended (s : HunkState) (line : List Nat)
    (added : Bool) (s2 : HunkState) (h : s.push_aux line added = some s2) :
    ∀ sp, sp ∈ s2.added_tokens ∨ sp ∈ s2.removed_tokens →
      (sp ∈ s.added_tokens ∨ sp ∈ s.removed_tokens) ∨
      (s.lines.len < sp.offset ∧
        ∀ j, sp.offset ≤ j → j < sp.offset + sp.length →
          ∃ b, s2.lines.data[j]? = some b ∧ isTokWs b = false) := by
  intro sp hsp
  simp only [HunkState.push_aux] at h
  cases hraw : add_raw_line s.lines line with
  | none => rw [hraw] at h; exact absurd h (by simp)
  | some lines2 =>
    rw [hraw] at h
    simp only [Option.some.injEq] at h
    subst h
    have hsound := tokenizeGo_sound lines2.data
      (lines2.data.drop (s.lines.len + 1 + wsRun (line.drop (s.lines.len + 1))))
      (s.lines.len + 1 + wsRun (line.drop (s.lines.len + 1))) none rfl
      (by intro st hst; simp at hst)
    cases added with
    | true =>
      simp only [if_true] at hsp ⊢
      rcases hsp with hmem | hmem
      · rcases List.mem_append.mp hmem with hold | hnew
        · exact Or.inl (Or.inl hold)
        · refine Or.inr ⟨?_, ?_⟩
          · have h1 := (hsound sp hnew).1
            simp only at h1
            omega
          · intro j hj1 hj2
            exact (hsound sp hnew).2 j hj1 hj2
      · exact Or.inl (Or.inr hmem)
    | false =>
      simp only [Bool.false_eq_true, if_false] at hsp ⊢
      rcases hsp with hmem | hmem
      · exact Or.inl (Or.inl hmem)
      · rcases List.mem_append.mp hmem with hold | hnew
        · exact Or.inl (Or.inr hold)
        · refine Or.inr ⟨?_, ?_⟩
          · have h1 := (hsound sp hnew).1
            simp only at h1
            omega
          · intro j hj1 hj2
            exact (hsound sp hnew).2 j hj1 hj2

theorem c3_push_tokenize_witness :
    3 < 5 ∧ (∃ b, ([45, 120, 10, 43, 97, 98, 32, 10] : List Nat)[5]?
      = some b ∧ isTokWs b = false) := by
  have h := c3_push_tokenize_amended ⟨⟨[45, 120, 10], [3]⟩, [], []⟩
    [43, 97, 98, 32, 10] true
    ⟨⟨[45, 120, 10, 43, 97, 98, 32, 10], [3, 5]⟩, [⟨5, 1⟩], []⟩
    (by decide) ⟨5, 1⟩ (Or.inl (by simp))
  rcases h with hold | hnew
  · rcases hold with h1 | h1 <;> simp at h1
  · exact ⟨hnew.1, hnew.2 5 (Nat.le_refl 5) (by decide)⟩
